import Mathlib

/-!
Shallow embedding of `validator/keymanager/v2/direct/direct.go` (direct
keymanager for EIP-2335 keystores), together with proofs about the claims of
the specification.

Conventions of the embedding:
* Go byte slices are `List Nat` (`Bytes`); a Go `[]byte` field that can be
  `nil` is `Option Bytes` (`none` models the nil slice).
* External collaborators that live outside the embedded source file
  (the BLS library, the keystorev4 encryptor, the petnames generator, the
  `mputil.Scatter` fan-out and the storage wallet) are modelled from the
  spec, as stated in their doc comments; everything else is translated
  line by line from `direct.go`.
* Fallible Go code returns `Except String`.
-/

/-- Byte strings: a Go `[]byte` value (each entry one byte). -/
abbrev Bytes := List Nat

/-- Embedding of `bytesutil.ToBytes48`: copy at most 48 bytes into a 48-byte
array, zero-padding on the right (Go `copy` into a zeroed `[48]byte`). -/
def toBytes48 (b : Bytes) : Bytes :=
  b.take 48 ++ List.replicate (48 - b.length) 0

/-- Modelled from the spec: the BLS collaborator (`shared/bls`, outside
`src/`) rejects invalid secret-key encodings; the spec only requires that a
recovered secret either yields a key or fails, so validity is modelled as
nonemptiness. -/
def blsSecretKeyFromBytes (b : Bytes) : Option Bytes :=
  if b.isEmpty then none else some b

/-- Modelled from the spec: public-key derivation of the BLS collaborator —
a deterministic function of the secret key producing a 48-byte key. -/
def blsPublicKey (sk : Bytes) : Bytes :=
  toBytes48 (1 :: sk)

/-- Modelled from the spec: deterministic BLS signing — the signature is a
pure function of the secret key and the message. -/
def blsSign (sk : Bytes) (msg : Bytes) : Bytes :=
  2 :: (sk ++ msg)

/-- Result of the keystorev4 `Decrypt` call, split by the error class the
source distinguishes: `wrongPassword` is the `invalid checksum` error the
code string-matches on; `malformed` is any other decryptor error. -/
inductive DecryptResult where
  | ok (b : Bytes)
  | wrongPassword
  | malformed
deriving DecidableEq

/-- Modelled from the spec: an encrypted `crypto` payload of a keystorev4
record — the password-based encryption primitive is opaque, so the model
carries the plaintext, the correct password and a well-formedness flag. -/
structure Crypto where
  payload : Bytes
  password : String
  wellFormed : Bool
deriving DecidableEq

/-- Modelled from the spec: keystorev4 `Encrypt` — always yields a
well-formed record that decrypts back to the data under the password. -/
def encrypt (data : Bytes) (password : String) : Crypto :=
  ⟨data, password, true⟩

/-- Modelled from the spec: keystorev4 `Decrypt` — fails with the checksum
error exactly when the password is wrong, with a structural error when the
record is malformed, and otherwise returns the plaintext. -/
def decrypt (c : Crypto) (password : String) : DecryptResult :=
  if c.wellFormed = false then DecryptResult.malformed
  else if password = c.password then DecryptResult.ok c.payload
  else DecryptResult.wrongPassword

/-- Embedding of `v2keymanager.Keystore`: the versioned record
`(crypto, id, pubkey, version, name)`; `pubkey` is a hex string. -/
structure Keystore where
  crypto : Crypto
  id : String
  pubkey : String
  version : Nat
  name : String
deriving DecidableEq

/-- Value of one hex digit character (by code point), as accepted by Go
`hex.DecodeString`. -/
def hexDigitVal (n : Nat) : Option Nat :=
  if 48 ≤ n ∧ n ≤ 57 then some (n - 48)
  else if 97 ≤ n ∧ n ≤ 102 then some (n - 87)
  else if 65 ≤ n ∧ n ≤ 70 then some (n - 55)
  else none

/-- Decode an even-length list of hex digit characters into bytes. -/
def hexPairs : List Char → Option Bytes
  | [] => some []
  | [_] => none
  | c1 :: c2 :: rest =>
    match hexDigitVal c1.toNat, hexDigitVal c2.toNat, hexPairs rest with
    | some hi, some lo, some tail => some ((16 * hi + lo) :: tail)
    | _, _, _ => none

/-- Embedding of Go `hex.DecodeString`. -/
def hexDecode (s : String) : Option Bytes :=
  hexPairs s.data

/-- Embedding of the Go `string(b)` conversion applied to decrypted payload
bytes before they are hex-decoded. -/
def bytesToString (b : Bytes) : String :=
  String.mk (b.map (fun n => Char.ofNat n))

/-- The in-memory secret key cache `keysCache : map[[48]byte]bls.SecretKey`,
modelled as an association list from 48-byte public keys to secret keys. -/
abbrev KeysCache := List (Bytes × Bytes)

/-- Go map assignment `m[k] = v`: overwrite the binding when the key is
present, append it otherwise. -/
def mapInsert (m : KeysCache) (k v : Bytes) : KeysCache :=
  if m.any (fun p => p.1 == k) then
    m.map (fun p => if p.1 == k then (k, v) else p)
  else m ++ [(k, v)]

/-- Modelled from the spec: the storage collaborator (`iface.Wallet`),
reduced to the operations the embedded functions call. `readKeystore`
combines `ReadFileAtPath` with the JSON decode of the keystore record, and
`walletPassword` is `wallet.Password()`. -/
structure Wallet where
  listDirs : Except String (List String)
  readPassword : String → Except String String
  readKeystore : String → Except String Keystore
  walletPassword : String

/-- Suffix for password artifacts (`PasswordFileSuffix`). -/
def passSuffix : String := ".pass"

def errDecrypt : String := "could not decrypt signing key"

def errBadKey : String := "could not determine signing key"

def errIndex : String := "index out of range"

/-- Loop body of the `Scatter` callback in `initializeSecretKeysCache`
(per account: read the password artifact, read and decode the keystore
record, decrypt, rebuild the secret key and insert it into the cache under
the public key derived from the decrypted secret). -/
def processAccount (w : Wallet) (c : KeysCache) (name : String) :
    Except String KeysCache := do
  let password ← w.readPassword (name ++ passSuffix)
  let keystoreFile ← w.readKeystore name
  match decrypt keystoreFile.crypto password with
  | DecryptResult.wrongPassword => throw (errDecrypt ++ name)
  | DecryptResult.malformed => throw (errDecrypt ++ name)
  | DecryptResult.ok rawSigningKey =>
    match blsSecretKeyFromBytes rawSigningKey with
    | none => throw (errBadKey ++ name)
    | some validatorSigningKey =>
      pure (mapInsert c
        (toBytes48 (blsPublicKey validatorSigningKey)) validatorSigningKey)

/-- One shard of a `mputil.Scatter` fan-out: its offset and its number of
entries. Modelled from the spec, which partitions the account names into
contiguous shards. -/
structure Shard where
  offset : Nat
  entries : Nat
deriving DecidableEq

/-- A shard list is a valid scatter partition of `n` items when the shards
are contiguous, nonempty and cover exactly the range `[k, n)`. -/
def isValidPartition (n : Nat) : Nat → List Shard → Bool
  | k, [] => k == n
  | k, s :: rest =>
    s.offset == k && decide (1 ≤ s.entries) && isValidPartition n (k + s.entries) rest

/-- The shard worker of `initializeSecretKeysCache`: iterates
`i = 0 .. entries-1` over `accountNames[offset : offset+entries]` but reads
`accountNames[i]` — the index is taken from the full slice, exactly as the
source does (`name := accountNames[i]`); `offset` is never used. -/
def shardRun (w : Wallet) (accountNames : List String)
    (offset entries : Nat) (c : KeysCache) : Except String KeysCache :=
  let _ := offset
  (List.range entries).foldlM
    (fun acc i =>
      match accountNames.get? i with
      | some name => processAccount w acc name
      | none => throw errIndex)
    c

/-- Embedding of `initializeSecretKeysCache`: list the account names, return
an empty cache when there are none, and otherwise run every scatter shard
over the (initially empty) cache. The concurrent shards all write to the one
cache committed under a single lock; the model composes them sequentially,
which realises one legal interleaving of the committed insertions. -/
def initSecretKeysCache (w : Wallet) (shards : List Shard) :
    Except String KeysCache := do
  let accountNames ← w.listDirs
  if accountNames.length == 0 then pure []
  else shards.foldlM (fun c s => shardRun w accountNames s.offset s.entries c) []

/-- Embedding of `validatorpb.SignRequest`: the `PublicKey` field is a Go
byte slice that may be `nil` (`none`). -/
structure SignRequest where
  publicKey : Option Bytes
  signingRoot : Bytes
deriving DecidableEq

def errNilPubKey : String := "nil public key in request"

def errNoSigningKey : String := "no signing key found in keys cache"

/-- Embedding of `Keymanager.Sign`: reject a nil public key, look up the
48-byte key (zero-padded/truncated by `ToBytes48`) in the cache, fail when
absent, and otherwise sign the signing root with the cached secret key. -/
def Sign (cache : KeysCache) (req : SignRequest) : Except String Bytes :=
  match req.publicKey with
  | none => throw errNilPubKey
  | some rawPubKey =>
    match cache.lookup (toBytes48 rawPubKey) with
    | none => throw errNoSigningKey
    | some secretKey => pure (blsSign secretKey req.signingRoot)

/-- The public keys held by the cache, in enumeration order. -/
def keysOfCache (c : KeysCache) : List Bytes :=
  c.map (fun p => p.1)

def errBadPubkeyHex : String := "could not decode pubkey bytes"

/-- Slow-path body of `FetchValidatingPublicKeys` for one account: read the
keystore record from storage and hex-decode its stored `pubkey` field. No
password is read and nothing is decrypted. -/
def fetchOneFromKeystore (w : Wallet) (name : String) : Except String Bytes := do
  let keystoreFile ← w.readKeystore name
  match hexDecode keystoreFile.pubkey with
  | none => throw errBadPubkeyHex
  | some pubKeyBytes => pure (toBytes48 pubKeyBytes)

/-- Embedding of `FetchValidatingPublicKeys`: when the cache size equals the
number of account names the keys come straight from the cache; otherwise
each account's keystore record is read and its `pubkey` field decoded. -/
def fetchValidatingPublicKeys (w : Wallet) (cache : KeysCache) :
    Except String (List Bytes) := do
  let accountNames ← w.listDirs
  if cache.length == accountNames.length then pure (keysOfCache cache)
  else accountNames.mapM (fetchOneFromKeystore w)

def errWrongImportPassword (pubkey : String) : String :=
  "invalid password for account with public key " ++ pubkey

def errMalformedDecrypt : String := "keystore decrypt failed"

def errCouldNotDecrypt : String := "could not decrypt keystore"

def errHex : String := "could not decode hex"

def errPrompt (e : String) : String :=
  "could not read account password: " ++ e

def errPromptEnd : String := "could not read account password: end of input"

/-- Embedding of `askUntilPasswordConfirms`: prompt for the record's
password and decrypt; on the wrong-password (checksum) error, prompt again;
on any other decrypt error or a prompt failure, give up. The interactive
provider is modelled as the list of its successive responses; an exhausted
list models the provider failing (end of input). -/
def askUntilPasswordConfirms (crypto : Crypto)
    (prompts : List (Except String String)) : Except String Bytes :=
  match prompts with
  | [] => throw errPromptEnd
  | p :: rest =>
    match p with
    | Except.error e => throw (errPrompt e)
    | Except.ok password =>
      match decrypt crypto password with
      | DecryptResult.wrongPassword => askUntilPasswordConfirms crypto rest
      | DecryptResult.malformed => throw errMalformedDecrypt
      | DecryptResult.ok secretKey => pure secretKey

/-- Loop body of the shared-password branch of `ImportKeystores`: decrypt
with the shared password (wrong password aborts with an error naming the
record's public key, any other failure aborts), hex-decode the decrypted
private key text and the record's `pubkey` field, and produce the pair
written into `privKeys[i]` / `pubKeys[i]`. -/
def importRecordShared (password : String) (ks : Keystore) :
    Except String (Option Bytes × Option Bytes) :=
  match decrypt ks.crypto password with
  | DecryptResult.wrongPassword => throw (errWrongImportPassword ks.pubkey)
  | DecryptResult.malformed => throw errMalformedDecrypt
  | DecryptResult.ok privKey =>
    match hexDecode (bytesToString privKey) with
    | none => throw errHex
    | some privKeyBytes =>
      match hexDecode ks.pubkey with
      | none => throw errHex
      | some pubKeyBytes => pure (some privKeyBytes, some pubKeyBytes)

/-- Loop body of the interactive branch of `ImportKeystores`: try the
first-entered password; on the wrong-password error fall back to the
per-record prompt loop and store the recovered pair; on any other decrypt
error abort. When the first password succeeds the source discards the
decrypted key and never assigns `privKeys[i]` / `pubKeys[i]`, leaving both
nil — the model returns `(none, none)` exactly as the source leaves them. -/
def importRecordInteractive (password : String)
    (prompts : List (Except String String)) (ks : Keystore) :
    Except String (Option Bytes × Option Bytes) :=
  match decrypt ks.crypto password with
  | DecryptResult.wrongPassword =>
    match askUntilPasswordConfirms ks.crypto prompts with
    | Except.error e => throw e
    | Except.ok privKey =>
      match hexDecode (bytesToString privKey) with
      | none => throw errHex
      | some privKeyBytes =>
        match hexDecode ks.pubkey with
        | none => throw errHex
        | some pubKeyBytes => pure (some privKeyBytes, some pubKeyBytes)
  | DecryptResult.malformed => throw errCouldNotDecrypt
  | DecryptResult.ok _ => pure (none, none)

/-- The interactive import loop over the records, threading the record
index `i` so each record draws from its own prompt stream. -/
def importInteractiveLoop (password : String)
    (prompts : Nat → List (Except String String)) (i : Nat) :
    List Keystore → Except String (List (Option Bytes × Option Bytes))
  | [] => Except.ok []
  | ks :: rest => do
    let pair ← importRecordInteractive password (prompts i) ks
    let pairs ← importInteractiveLoop password prompts (i + 1) rest
    pure (pair :: pairs)

/-- The password source of `ImportKeystores`: either the shared password
read from the password file, or the interactive provider (the first global
prompt plus, per record index, the stream of follow-up prompt responses). -/
inductive PasswordSource where
  | file (password : String)
  | interactive (first : Except String String)
      (prompts : Nat → List (Except String String))

/-- Embedding of `AccountStore`: the index-correlated private/public key
arrays; entries the source never assigns stay `none` (Go nil). -/
structure AccountStore where
  privateKeys : List (Option Bytes)
  publicKeys : List (Option Bytes)
deriving DecidableEq

/-- Length-prefixed byte encoding. -/
def encBytes (b : Bytes) : Bytes := b.length :: b

/-- Encoding of one optional key slot (tag plus payload). -/
def encOpt : Option Bytes → Bytes
  | none => [0]
  | some b => 1 :: encBytes b

/-- Embedding of the JSON serialization of an `AccountStore` (an injective
encoding standing in for `json.MarshalIndent`). -/
def encodeAccountStore (s : AccountStore) : Bytes :=
  s.privateKeys.length :: (s.privateKeys.map encOpt).flatten ++
    s.publicKeys.length :: (s.publicKeys.map encOpt).flatten

def combinedName : String := "combined"

/-- Embedding of `createAccountsKeystore`: serialize the `AccountStore` of
the accumulated arrays and encrypt it under the destination wallet's own
password; the fresh random identifier is threaded in as a parameter. -/
def createAccountsKeystore (walletPassword : String)
    (privateKeys publicKeys : List (Option Bytes)) (id : String) : Keystore :=
  { crypto := encrypt (encodeAccountStore ⟨privateKeys, publicKeys⟩) walletPassword
    id := id
    pubkey := ""
    version := 4
    name := combinedName }

/-- Embedding of `ImportKeystores`: run the mode-specific loop over the
records, then build the single combined container from the accumulated
index-correlated arrays and encrypt it under the wallet's password. The
returned keystore is the value persisted as the combined container file; an
error means nothing is written. -/
def ImportKeystores (w : Wallet) (src : PasswordSource)
    (keystores : List Keystore) (newId : String) : Except String Keystore := do
  let pairs ←
    match src with
    | PasswordSource.file password => keystores.mapM (importRecordShared password)
    | PasswordSource.interactive first prompts =>
      match first with
      | Except.error e => throw (errPrompt e)
      | Except.ok password => importInteractiveLoop password prompts 0 keystores
  pure (createAccountsKeystore w.walletPassword
    (pairs.map (fun p => p.1)) (pairs.map (fun p => p.2)) newId)

def dashSep : String := "-"

/-- Modelled from the spec: the human-readable name generator
(`petnames.DeterministicName`, outside `src/`) — a deterministic pure
function of the public key and separator. -/
def deterministicName (pubKey : Bytes) (sep : String) : String :=
  "acct" ++ sep ++ toString (pubKey.foldl (fun a b => a + b) 0)

/-- Embedding of `generateAccountName` as a step-indexed loop: each
iteration recomputes `petnames.DeterministicName(pubKey, sep)` — the very
same name, since the loop carries no disambiguation state — and returns it
only when no directory of that name exists; `none` means the loop is still
running after `fuel` iterations. `hasDirF` models the `hasDir` directory
check against the current filesystem state. -/
def generateAccountNameFuel (hasDirF : String → Bool) (pubKey : Bytes) :
    Nat → Option String
  | 0 => none
  | fuel + 1 =>
    let accountName := deterministicName pubKey dashSep
    if hasDirF accountName then generateAccountNameFuel hasDirF pubKey fuel
    else some accountName

/-- Storage write events of `CreateAccount`, in the order the source issues
them: the password artifact, the deposit data file, the keystore record. An
event is recorded only when the corresponding write succeeds. -/
inductive WEvent where
  | passwordWrite (name : String)
  | depositWrite (name : String)
  | keystoreWrite (name : String)
deriving DecidableEq

/-- Outcomes of the fallible steps of one `CreateAccount` run: the derived
account name (or a name-generation failure) and whether each subsequent
step succeeds. Deposit-transaction generation and its ssz serialization are
folded into `depositDataOk`. -/
structure CreateEnv where
  nameResult : Except String String
  passwordWriteOk : Bool
  keystoreEncodeOk : Bool
  depositDataOk : Bool
  depositWriteOk : Bool
  keystoreWriteOk : Bool

def errPwWrite : String := "could not write password to disk"

def errKsEncode : String := "could not encrypt validating key into keystore"

def errDepositData : String := "could not generate deposit transaction data"

def errDepositWrite : String := "could not write deposit data"

def errKsWrite : String := "could not write keystore file"

/-- Embedding of `CreateAccount` as its sequence of successful storage
writes plus its result: the password artifact is written first, then the
deposit data, then the keystore record, each step aborting the run on
failure. -/
def CreateAccount (env : CreateEnv) : List WEvent × Except String String :=
  match env.nameResult with
  | Except.error e => ([], Except.error e)
  | Except.ok accountName =>
    if env.passwordWriteOk = false then ([], Except.error errPwWrite)
    else if env.keystoreEncodeOk = false then
      ([WEvent.passwordWrite accountName], Except.error errKsEncode)
    else if env.depositDataOk = false then
      ([WEvent.passwordWrite accountName], Except.error errDepositData)
    else if env.depositWriteOk = false then
      ([WEvent.passwordWrite accountName], Except.error errDepositWrite)
    else if env.keystoreWriteOk = false then
      ([WEvent.passwordWrite accountName, WEvent.depositWrite accountName],
        Except.error errKsWrite)
    else
      ([WEvent.passwordWrite accountName, WEvent.depositWrite accountName,
        WEvent.keystoreWrite accountName], Except.ok accountName)

deriving instance DecidableEq for Except

/-! Concrete fixtures: two valid accounts `a` and `b` whose password
artifacts and keystore records live in `mkWallet`, plus import fixtures. -/

def skA : Bytes := [1]

def skB : Bytes := [2]

/-- The 48-byte cache key of a secret key, as computed at the insertion
site of `initializeSecretKeysCache`. -/
def pk48 (sk : Bytes) : Bytes := toBytes48 (blsPublicKey sk)

def nameA : String := "a"

def nameB : String := "b"

def pwA : String := "pw-a"

def pwB : String := "pw-b"

def wPw : String := "wallet-pw"

def ksRecordA : Keystore :=
  { crypto := encrypt skA pwA, id := "A", pubkey := "", version := 4, name := "n" }

def ksRecordB : Keystore :=
  { crypto := encrypt skB pwB, id := "B", pubkey := "", version := 4, name := "n" }

/-- A wallet holding the two valid accounts `a` and `b` (password artifact
readable, keystore record decrypting under it) and listing `names`. -/
def mkWallet (names : List String) : Wallet :=
  { listDirs := Except.ok names
    readPassword := fun s =>
      if s == nameA ++ passSuffix then Except.ok pwA
      else if s == nameB ++ passSuffix then Except.ok pwB
      else Except.error errIndex
    readKeystore := fun s =>
      if s == nameA then Except.ok ksRecordA
      else if s == nameB then Except.ok ksRecordB
      else Except.error errIndex
    walletPassword := wPw }

/-- The two-worker scatter partition of two items. -/
def partTwo : List Shard := [⟨0, 1⟩, ⟨1, 1⟩]

/-- C1: REFUTED on the code. Two valid accounts `a`, `b` and the two-shard
scatter partition: initialization completes successfully, yet the cache
holds a single entry (both shards processed `accountNames[i]` for
`i < entries`, i.e. account `a`, because the shard body indexes the full
slice instead of `accountNames[offset+i]`), and `Sign` for account `b`'s
public key fails with the not-found error although `b` is one of the two
valid accounts. -/
theorem initCache_two_shards_loses_account :
    initSecretKeysCache (mkWallet [nameA, nameB]) partTwo =
      Except.ok [(pk48 skA, skA)] ∧
    isValidPartition 2 0 partTwo = true ∧
    ([(pk48 skA, skA)] : KeysCache).length ≠ [nameA, nameB].length ∧
    Sign [(pk48 skA, skA)] ⟨some (blsPublicKey skB), [9]⟩ =
      Except.error errNoSigningKey := by
  refine ⟨by decide, by decide, by decide, by decide⟩

/-- C2: REFUTED on the code. Permuting the account-name list `[a, b]` to
`[b, a]` under the same two-shard partition changes the resulting cache
content: the first order loads only account `a`, the second only account
`b`, so the (pubkey → secretkey) mapping differs at `a`'s public key. -/
theorem initCache_not_order_independent :
    initSecretKeysCache (mkWallet [nameA, nameB]) partTwo =
      Except.ok [(pk48 skA, skA)] ∧
    initSecretKeysCache (mkWallet [nameB, nameA]) partTwo =
      Except.ok [(pk48 skB, skB)] ∧
    ([(pk48 skA, skA)] : KeysCache).lookup (pk48 skA) = some skA ∧
    ([(pk48 skB, skB)] : KeysCache).lookup (pk48 skA) = none := by
  refine ⟨by decide, by decide, by decide, by decide⟩

def impPw : String := "import-pw"

/-- An import record whose decrypted payload is the hex text `0a` (bytes
`[48, 97]`) and whose `pubkey` field is the hex string `03`. -/
def ksImp : Keystore :=
  { crypto := encrypt [48, 97] impPw, id := "I", pubkey := "03", version := 4, name := "n" }

/-- C3: REFUTED on the code in interactive mode. One record that decrypts
under the first-entered password: the source discards the decrypted key
(`_, err = decryptor.Decrypt`) and never assigns `privKeys[0]` or
`pubKeys[0]`, so the persisted combined container holds the pair
`(nil, nil)` even though the record's private key decodes to `[10]` and its
pubkey to `[3]` — not the index-correlated original pair the claim
requires. -/
theorem import_interactive_drops_pair_on_first_password_success :
    ImportKeystores (mkWallet [])
        (PasswordSource.interactive (Except.ok impPw) (fun _ => [])) [ksImp] "id" =
      Except.ok (createAccountsKeystore wPw [none] [none] "id") ∧
    decrypt ksImp.crypto impPw = DecryptResult.ok [48, 97] ∧
    hexDecode (bytesToString [48, 97]) = some [10] ∧
    hexDecode ksImp.pubkey = some [3] ∧
    (none : Option Bytes) ≠ some [10] := by
  refine ⟨by decide, by decide, by decide, by decide, by decide⟩

def pkStuck : Bytes := [7]

/-- C6: REFUTED on the code. When the deterministic name derived from the
public key already exists as an account directory (`hasDir` answers true),
the loop of `generateAccountName` recomputes the very same name on every
iteration — it carries no disambiguation state, and its `accountExists`
flag is never assigned — so it never returns, for any number of
iterations. -/
theorem generateAccountName_spins_on_collision :
    ∀ fuel : Nat, generateAccountNameFuel (fun _ => true) pkStuck fuel = none := by
  intro fuel
  induction fuel with
  | zero => rfl
  | succ n ih => simpa [generateAccountNameFuel] using ih

/-- C8 counterexample: a request whose public key is the empty (zero-length,
non-nil) byte slice passes the source's nil check, is zero-padded to the
48-byte zero key by `ToBytes48`, and — when the cache maps that key —
`Sign` succeeds instead of failing, contradicting the claim that a
non-empty public key is required and `Sign` fails otherwise. -/
theorem sign_succeeds_on_empty_nonnil_pubkey :
    Sign [(toBytes48 [], skA)] ⟨some [], [9]⟩ = Except.ok (blsSign skA [9]) ∧
    (some ([] : Bytes)) ≠ (none : Option Bytes) := by
  refine ⟨by decide, by decide⟩

/-- C8 amended: `Sign` requires a non-nil public key and fails otherwise;
for every non-nil key it fails with the not-found error exactly when the
48-byte padded key is absent from the cache, and otherwise returns the
deterministic signature of the root under the cached secret key — no other
outcome is possible. -/
theorem sign_requires_nonnil_key_trichotomy :
    ∀ (cache : KeysCache) (req : SignRequest),
      (req.publicKey = none → Sign cache req = Except.error errNilPubKey) ∧
      (∀ raw, req.publicKey = some raw →
        (cache.lookup (toBytes48 raw) = none →
          Sign cache req = Except.error errNoSigningKey) ∧
        (∀ sk, cache.lookup (toBytes48 raw) = some sk →
          Sign cache req = Except.ok (blsSign sk req.signingRoot))) := by
  intro cache req
  obtain ⟨pk, root⟩ := req
  constructor
  · intro h
    subst h
    rfl
  · intro raw hraw
    cases pk with
    | none => exact absurd hraw (by simp)
    | some raw0 =>
      have hr : raw0 = raw := by simpa using hraw
      subst hr
      constructor
      · intro hnone
        simp [Sign, hnone]
        rfl
      · intro sk hsk
        simp [Sign, hsk]
        rfl

/-- Witness for the amended C8 theorem: instantiating it at the nil-key
request, at an absent key and at a present key, with every hypothesis
discharged on concrete inputs. -/
theorem sign_requires_nonnil_key_trichotomy_witness :
    Sign [] ⟨none, [9]⟩ = Except.error errNilPubKey ∧
    Sign [] ⟨some skB, [9]⟩ = Except.error errNoSigningKey ∧
    Sign [(toBytes48 skB, skA)] ⟨some skB, [9]⟩ = Except.ok (blsSign skA [9]) := by
  refine ⟨(sign_requires_nonnil_key_trichotomy [] ⟨none, [9]⟩).1 rfl,
    (((sign_requires_nonnil_key_trichotomy [] ⟨some skB, [9]⟩).2 skB rfl).1 (by decide)),
    (((sign_requires_nonnil_key_trichotomy [(toBytes48 skB, skA)] ⟨some skB, [9]⟩).2
      skB rfl).2 skA (by decide))⟩

/-- If every occurrence of `y` in `l` is preceded by an occurrence of `x`,
then every prefix `l.take k` containing `y` also contains `x`. -/
theorem mem_take_of_preceded {α : Type} {l : List α} {x y : α}
    (hpos : ∀ j, l.get? j = some y → ∃ i, i < j ∧ l.get? i = some x) :
    ∀ k, y ∈ l.take k → x ∈ l.take k := by
  intro k hy
  obtain ⟨j, hj⟩ := List.get?_of_mem hy
  have hjk : j < k := by
    have hlen : j < (l.take k).length := (List.get?_eq_some.mp hj).1
    have : (l.take k).length ≤ k := by
      simp [List.length_take]
    omega
  have hjl : l.get? j = some y := by
    rwa [List.get?_take hjk] at hj
  obtain ⟨i, hij, hx⟩ := hpos j hjl
  have hik : i < k := lt_trans hij hjk
  have : (l.take k).get? i = some x := by
    rwa [List.get?_take hik]
  exact List.get?_mem this

/-- In the empty trace a keystore write never occurs. -/
theorem ksPos_nil (nm : String) (j : Nat) :
    ([] : List WEvent).get? j = some (WEvent.keystoreWrite nm) →
    ∃ i, i < j ∧ ([] : List WEvent).get? i = some (WEvent.passwordWrite nm) := by
  intro h
  simp at h

/-- In a trace holding only the password write, a keystore write never
occurs. -/
theorem ksPos_one (an nm : String) (j : Nat) :
    ([WEvent.passwordWrite an]).get? j = some (WEvent.keystoreWrite nm) →
    ∃ i, i < j ∧
      ([WEvent.passwordWrite an]).get? i = some (WEvent.passwordWrite nm) := by
  intro h
  have hm := List.get?_mem h
  simp at hm

/-- In a trace holding the password and deposit writes, a keystore write
never occurs. -/
theorem ksPos_two (an nm : String) (j : Nat) :
    ([WEvent.passwordWrite an, WEvent.depositWrite an]).get? j =
        some (WEvent.keystoreWrite nm) →
    ∃ i, i < j ∧
      ([WEvent.passwordWrite an, WEvent.depositWrite an]).get? i =
        some (WEvent.passwordWrite nm) := by
  intro h
  have hm := List.get?_mem h
  simp at hm

/-- In the full trace the keystore write sits at position 2, after the
password write at position 0. -/
theorem ksPos_three (an nm : String) (j : Nat) :
    ([WEvent.passwordWrite an, WEvent.depositWrite an,
        WEvent.keystoreWrite an]).get? j = some (WEvent.keystoreWrite nm) →
    ∃ i, i < j ∧
      ([WEvent.passwordWrite an, WEvent.depositWrite an,
          WEvent.keystoreWrite an]).get? i = some (WEvent.passwordWrite nm) := by
  intro h
  match j with
  | 0 => simp at h
  | 1 => simp at h
  | 2 =>
    simp at h
    exact ⟨0, by omega, by simp [h]⟩
  | j + 3 => simp at h

/-- The write trace of a `CreateAccount` run is one of the four prefixes of
password write, deposit write, keystore write (for the derived name). -/
theorem createAccount_trace_shape (env : CreateEnv) :
    (CreateAccount env).1 = [] ∨
    (∃ an, (CreateAccount env).1 = [WEvent.passwordWrite an]) ∨
    (∃ an, (CreateAccount env).1 =
      [WEvent.passwordWrite an, WEvent.depositWrite an]) ∨
    (∃ an, (CreateAccount env).1 =
      [WEvent.passwordWrite an, WEvent.depositWrite an,
        WEvent.keystoreWrite an]) := by
  obtain ⟨nr, p, ke, dd, dw, kw⟩ := env
  cases nr with
  | error e => exact Or.inl rfl
  | ok an =>
    cases p with
    | false => exact Or.inl rfl
    | true =>
      cases ke with
      | false => exact Or.inr (Or.inl ⟨an, rfl⟩)
      | true =>
        cases dd with
        | false => exact Or.inr (Or.inl ⟨an, rfl⟩)
        | true =>
          cases dw with
          | false => exact Or.inr (Or.inl ⟨an, rfl⟩)
          | true =>
            cases kw with
            | false => exact Or.inr (Or.inr (Or.inl ⟨an, rfl⟩))
            | true => exact Or.inr (Or.inr (Or.inr ⟨an, rfl⟩))

/-- An environment whose run writes the password artifact and then fails to
encode the keystore: the trace stops at the password write. -/
def envPwOnly : CreateEnv :=
  { nameResult := Except.ok nameA
    passwordWriteOk := true
    keystoreEncodeOk := false
    depositDataOk := true
    depositWriteOk := true
    keystoreWriteOk := true }

/-- C7: CONFIRMED. In every run of `CreateAccount` and every reachable
intermediate prefix of its successful-write trace, a keystore write for a
name is always preceded by the password write for that name (so a keystore
record never exists without its password artifact), while the run
`envPwOnly` shows the converse intermediate state — password artifact
without keystore record — is reachable. -/
theorem createAccount_password_precedes_keystore :
    (∀ (env : CreateEnv) (k : Nat) (nm : String),
      WEvent.keystoreWrite nm ∈ (CreateAccount env).1.take k →
      WEvent.passwordWrite nm ∈ (CreateAccount env).1.take k) ∧
    (CreateAccount envPwOnly).1 = [WEvent.passwordWrite nameA] ∧
    WEvent.passwordWrite nameA ∈ (CreateAccount envPwOnly).1.take 1 ∧
    WEvent.keystoreWrite nameA ∉ (CreateAccount envPwOnly).1.take 1 := by
  refine ⟨?_, by decide, by decide, by decide⟩
  intro env k nm
  rcases createAccount_trace_shape env with h | ⟨an, h⟩ | ⟨an, h⟩ | ⟨an, h⟩ <;>
    rw [h] <;> apply mem_take_of_preceded
  · exact ksPos_nil nm
  · exact ksPos_one an nm
  · exact ksPos_two an nm
  · exact ksPos_three an nm

/-- Witness for C7: the universal part applied at a concrete successful
run, a concrete prefix length and a concrete name, with the membership
hypothesis discharged by evaluation. -/
theorem createAccount_password_precedes_keystore_witness :
    WEvent.passwordWrite nameA ∈
      (CreateAccount ⟨Except.ok nameA, true, true, true, true, true⟩).1.take 3 := by
  exact createAccount_password_precedes_keystore.1
    ⟨Except.ok nameA, true, true, true, true, true⟩ 3 nameA (by decide)

/-- Reduction of `Except` bind on a success value. -/
theorem except_bind_ok {ε α β : Type} (a : α) (f : α → Except ε β) :
    (Except.ok a >>= f) = f a := rfl

/-- Reduction of `Except` bind on an error value. -/
theorem except_bind_error {ε α β : Type} (e : ε) (f : α → Except ε β) :
    ((Except.error e : Except ε α) >>= f) = Except.error e := rfl

/-- `pure` on `Except` is `Except.ok`. -/
theorem except_pure {ε α : Type} (a : α) : (pure a : Except ε α) = Except.ok a := rfl

/-- `throw` on `Except` is `Except.error`. -/
theorem except_throw {ε α : Type} (e : ε) : (throw e : Except ε α) = Except.error e := rfl

/-- The cache invariant: every entry's 48-byte map key is the public key
derived from the stored secret key. -/
def cacheInv (c : KeysCache) : Prop :=
  ∀ p ∈ c, p.1 = toBytes48 (blsPublicKey p.2)

/-- Inserting an entry under the key derived from its secret key preserves
the cache invariant, whether the assignment overwrites or appends. -/
theorem mapInsert_inv {c : KeysCache} {k v : Bytes} (hc : cacheInv c)
    (hk : k = toBytes48 (blsPublicKey v)) : cacheInv (mapInsert c k v) := by
  unfold mapInsert
  split
  · intro p hp
    rw [List.mem_map] at hp
    obtain ⟨q, hq, hpq⟩ := hp
    by_cases hqk : q.1 == k
    · rw [if_pos hqk] at hpq
      rw [← hpq]
      exact hk
    · rw [if_neg hqk] at hpq
      rw [← hpq]
      exact hc q hq
  · intro p hp
    rw [List.mem_append] at hp
    cases hp with
    | inl h => exact hc p h
    | inr h =>
      have : p = (k, v) := by simpa using h
      rw [this]
      exact hk

/-- The per-account body of the cache build preserves the invariant: the
inserted key is always computed from the decrypted secret key. -/
theorem processAccount_inv {w : Wallet} {c c' : KeysCache} {name : String}
    (hc : cacheInv c) (h : processAccount w c name = Except.ok c') :
    cacheInv c' := by
  unfold processAccount at h
  cases hpw : w.readPassword (name ++ passSuffix) with
  | error e =>
    rw [hpw, except_bind_error] at h
    exact absurd h (by simp)
  | ok password =>
    rw [hpw, except_bind_ok] at h
    cases hks : w.readKeystore name with
    | error e =>
      rw [hks, except_bind_error] at h
      exact absurd h (by simp)
    | ok keystoreFile =>
      rw [hks, except_bind_ok] at h
      cases hdec : decrypt keystoreFile.crypto password with
      | wrongPassword =>
        rw [hdec] at h
        exact absurd h (by simp [except_throw])
      | malformed =>
        rw [hdec] at h
        exact absurd h (by simp [except_throw])
      | ok rawSigningKey =>
        rw [hdec] at h
        have h2 : (match blsSecretKeyFromBytes rawSigningKey with
            | none => (throw (errBadKey ++ name) : Except String KeysCache)
            | some validatorSigningKey =>
              pure (mapInsert c
                (toBytes48 (blsPublicKey validatorSigningKey)) validatorSigningKey)) =
            Except.ok c' := h
        cases hsk : blsSecretKeyFromBytes rawSigningKey with
        | none =>
          rw [hsk] at h2
          exact absurd h2 (by simp [except_throw])
        | some validatorSigningKey =>
          rw [hsk] at h2
          have h3 : Except.ok (mapInsert c
              (toBytes48 (blsPublicKey validatorSigningKey)) validatorSigningKey) =
              Except.ok c' := h2
          rw [← Except.ok.inj h3]
          exact mapInsert_inv hc rfl

/-- A property preserved by every successful step of a fold over `Except`
is preserved by the whole fold. -/
theorem foldlM_except_inv {α β : Type} {P : β → Prop}
    {step : β → α → Except String β}
    (hstep : ∀ b a b', P b → step b a = Except.ok b' → P b') :
    ∀ (l : List α) (b b' : β), P b → l.foldlM step b = Except.ok b' → P b' := by
  intro l
  induction l with
  | nil =>
    intro b b' hb h
    rw [List.foldlM_nil, except_pure] at h
    rwa [← Except.ok.inj h]
  | cons a t ih =>
    intro b b' hb h
    rw [List.foldlM_cons] at h
    cases hs : step b a with
    | error e =>
      rw [hs, except_bind_error] at h
      exact absurd h (by simp)
    | ok b2 =>
      rw [hs, except_bind_ok] at h
      exact ih b2 b' (hstep b a b2 hb hs) h

/-- The shard worker preserves the cache invariant. -/
theorem shardRun_inv {w : Wallet} {names : List String}
    {offset entries : Nat} {c c' : KeysCache}
    (hc : cacheInv c) (h : shardRun w names offset entries c = Except.ok c') :
    cacheInv c' := by
  unfold shardRun at h
  refine foldlM_except_inv (P := cacheInv) ?_ (List.range entries) c c' hc h
  intro b i b' hb hstep
  cases hget : names.get? i with
  | some name =>
    rw [hget] at hstep
    exact processAccount_inv hb hstep
  | none =>
    rw [hget] at hstep
    exact absurd hstep (by simp [except_throw])

/-- C10: CONFIRMED. Every entry of a cache produced by a successful run of
the embedded `initializeSecretKeysCache` satisfies the invariant: its
48-byte map key equals the public key derived from the stored secret key —
the key is computed from the decrypted secret at the single insertion site,
never taken from the record's `pubkey` field — and since no other operation
inserts into the cache, the invariant holds for every cache the program
exposes to `Sign` and enumeration. -/
theorem cache_key_is_derived_pubkey :
    ∀ (w : Wallet) (shards : List Shard) (cache : KeysCache),
      initSecretKeysCache w shards = Except.ok cache →
      ∀ p ∈ cache, p.1 = toBytes48 (blsPublicKey p.2) := by
  intro w shards cache h
  unfold initSecretKeysCache at h
  cases hld : w.listDirs with
  | error e =>
    rw [hld, except_bind_error] at h
    exact absurd h (by simp)
  | ok accountNames =>
    rw [hld, except_bind_ok] at h
    by_cases hlen : (accountNames.length == 0) = true
    · rw [if_pos hlen, except_pure] at h
      rw [← Except.ok.inj h]
      intro p hp
      simp at hp
    · rw [if_neg hlen] at h
      have hbase : cacheInv [] := by
        intro p hp
        simp at hp
      exact foldlM_except_inv (P := cacheInv)
        (fun b s b' hb hstep => shardRun_inv hb hstep) shards [] cache hbase h

/-- Witness for C10: the invariant theorem applied to the concrete
single-account wallet, whose successful initialization yields the
one-entry cache, at that entry. -/
theorem cache_key_is_derived_pubkey_witness :
    (pk48 skA, skA).1 = toBytes48 (blsPublicKey (pk48 skA, skA).2) := by
  exact cache_key_is_derived_pubkey (mkWallet [nameA]) [⟨0, 1⟩]
    [(pk48 skA, skA)] (by decide) (pk48 skA, skA) (by decide)

/-- A `mapM` over `Except` aborts with the first failing element's error
when everything before it succeeds. -/
theorem mapM_append_error {α β : Type} (f : α → Except String β) :
    ∀ (pre : List α) (preB : List β), pre.mapM f = Except.ok preB →
      ∀ (x : α) (e : String), f x = Except.error e →
      ∀ (post : List α), (pre ++ x :: post).mapM f = Except.error e := by
  intro pre
  induction pre with
  | nil =>
    intro preB hpre x e hx post
    rw [List.nil_append, List.mapM_cons, hx, except_bind_error]
  | cons a t ih =>
    intro preB hpre x e hx post
    rw [List.mapM_cons] at hpre
    cases ha : f a with
    | error e2 =>
      rw [ha, except_bind_error] at hpre
      exact absurd hpre (by simp)
    | ok b =>
      rw [ha, except_bind_ok] at hpre
      cases ht : t.mapM f with
      | error e2 =>
        rw [ht, except_bind_error] at hpre
        exact absurd hpre (by simp)
      | ok tb =>
        rw [List.cons_append, List.mapM_cons, ha, except_bind_ok,
          ih tb ht x e hx post, except_bind_error]

/-- C5: CONFIRMED. In shared-password mode, a record whose decryption fails
with the wrong-password (checksum) error makes its loop body fail with the
error naming that record's public key, and — first conjunct in hand — when
every record before some record succeeds and that record's loop body fails
with any error (wrong password or any other decode failure), the whole
bulk import fails with exactly that error, so no combined container value
is produced or written. -/
theorem shared_import_aborts_on_first_failure :
    (∀ (password : String) (ks : Keystore),
      decrypt ks.crypto password = DecryptResult.wrongPassword →
      importRecordShared password ks =
        Except.error (errWrongImportPassword ks.pubkey)) ∧
    (∀ (w : Wallet) (password : String) (pre : List Keystore) (ks : Keystore)
        (post : List Keystore) (preP : List (Option Bytes × Option Bytes))
        (e : String) (newId : String),
      pre.mapM (importRecordShared password) = Except.ok preP →
      importRecordShared password ks = Except.error e →
      ImportKeystores w (PasswordSource.file password) (pre ++ ks :: post) newId =
        Except.error e) := by
  constructor
  · intro password ks h
    unfold importRecordShared
    rw [h]
    rfl
  · intro w password pre ks post preP e newId hpre hks
    have hunfold : ImportKeystores w (PasswordSource.file password)
        (pre ++ ks :: post) newId =
        ((pre ++ ks :: post).mapM (importRecordShared password) >>= fun pairs =>
          pure (createAccountsKeystore w.walletPassword
            (pairs.map (fun p => p.1)) (pairs.map (fun p => p.2)) newId)) := rfl
    rw [hunfold,
      mapM_append_error (importRecordShared password) pre preP hpre ks e hks post,
      except_bind_error]

def badPw : String := "bad"

def idC : String := "cid"

/-- Witness for C5: the abort theorem applied at a concrete record whose
password is wrong, with both hypotheses discharged by evaluation. -/
theorem shared_import_aborts_on_first_failure_witness :
    importRecordShared badPw ksImp =
      Except.error (errWrongImportPassword ksImp.pubkey) ∧
    ImportKeystores (mkWallet []) (PasswordSource.file badPw) [ksImp] idC =
      Except.error (errWrongImportPassword ksImp.pubkey) := by
  refine ⟨shared_import_aborts_on_first_failure.1 badPw ksImp (by decide),
    shared_import_aborts_on_first_failure.2 (mkWallet []) badPw [] ksImp [] []
      (errWrongImportPassword ksImp.pubkey) idC (by decide)
      (shared_import_aborts_on_first_failure.1 badPw ksImp (by decide))⟩

/-- A successful interactive import loop yields exactly one pair per
record. -/
theorem importInteractiveLoop_length {password : String}
    {prompts : Nat → List (Except String String)} :
    ∀ (l : List Keystore) (i : Nat) (ps : List (Option Bytes × Option Bytes)),
      importInteractiveLoop password prompts i l = Except.ok ps →
      ps.length = l.length := by
  intro l
  induction l with
  | nil =>
    intro i ps h
    have h0 : Except.ok ([] : List (Option Bytes × Option Bytes)) =
        Except.ok ps := h
    rw [← Except.ok.inj h0]
    rfl
  | cons ks rest ih =>
    intro i ps h
    have hunfold : importInteractiveLoop password prompts i (ks :: rest) =
        (importRecordInteractive password (prompts i) ks >>= fun pair =>
          importInteractiveLoop password prompts (i + 1) rest >>= fun pairs =>
          pure (pair :: pairs)) := rfl
    rw [hunfold] at h
    cases hrec : importRecordInteractive password (prompts i) ks with
    | error e =>
      rw [hrec, except_bind_error] at h
      exact absurd h (by simp)
    | ok pair =>
      rw [hrec, except_bind_ok] at h
      cases hrest : importInteractiveLoop password prompts (i + 1) rest with
      | error e =>
        rw [hrest, except_bind_error] at h
        exact absurd h (by simp)
      | ok pairs =>
        rw [hrest, except_bind_ok, except_pure] at h
        rw [← Except.ok.inj h]
        simp [ih (i + 1) pairs hrest]

/-- The interactive import loop splits over list append, the second part
starting at the shifted record index. -/
theorem importInteractiveLoop_append {password : String}
    {prompts : Nat → List (Except String String)} :
    ∀ (l1 : List Keystore) (i : Nat)
      (p1 : List (Option Bytes × Option Bytes)) (l2 : List Keystore),
      importInteractiveLoop password prompts i l1 = Except.ok p1 →
      importInteractiveLoop password prompts i (l1 ++ l2) =
        (importInteractiveLoop password prompts (i + l1.length) l2 >>= fun p2 =>
          pure (p1 ++ p2)) := by
  intro l1
  induction l1 with
  | nil =>
    intro i p1 l2 h
    have h0 : Except.ok ([] : List (Option Bytes × Option Bytes)) =
        Except.ok p1 := h
    rw [← Except.ok.inj h0, List.nil_append]
    simp only [List.length_nil, Nat.add_zero]
    cases hres : importInteractiveLoop password prompts i l2 with
    | error e => rw [except_bind_error]
    | ok p2 =>
      rw [except_bind_ok, except_pure, List.nil_append]
  | cons ks rest ih =>
    intro i p1 l2 h
    have hunfold : importInteractiveLoop password prompts i (ks :: rest) =
        (importRecordInteractive password (prompts i) ks >>= fun pair =>
          importInteractiveLoop password prompts (i + 1) rest >>= fun pairs =>
          pure (pair :: pairs)) := rfl
    rw [hunfold] at h
    cases hrec : importRecordInteractive password (prompts i) ks with
    | error e =>
      rw [hrec, except_bind_error] at h
      exact absurd h (by simp)
    | ok pair =>
      rw [hrec, except_bind_ok] at h
      cases hrest : importInteractiveLoop password prompts (i + 1) rest with
      | error e =>
        rw [hrest, except_bind_error] at h
        exact absurd h (by simp)
      | ok pairs =>
        rw [hrest, except_bind_ok, except_pure] at h
        have hp1 : p1 = pair :: pairs := (Except.ok.inj h).symm
        subst hp1
        have hunfold2 : importInteractiveLoop password prompts i ((ks :: rest) ++ l2) =
            (importRecordInteractive password (prompts i) ks >>= fun pair2 =>
              importInteractiveLoop password prompts (i + 1) (rest ++ l2) >>= fun pairs2 =>
              pure (pair2 :: pairs2)) := rfl
        rw [hunfold2, hrec, except_bind_ok, ih (i + 1) pairs l2 hrest]
        have hidx : i + (ks :: rest).length = (i + 1) + rest.length := by
          simp [List.length_cons]
          omega
        rw [hidx]
        cases hl2 : importInteractiveLoop password prompts ((i + 1) + rest.length) l2 with
        | error e =>
          rw [except_bind_error, except_bind_error, except_bind_error]
        | ok p2 =>
          rw [except_bind_ok, except_pure, except_bind_ok, except_bind_ok,
            except_pure, except_pure, List.cons_append]

/-- C4: CONFIRMED. The per-record prompt loop retries exactly on the
wrong-password error: a prompted password that decrypts wrongly makes the
loop recurse on the remaining prompts, a password that decrypts makes it
return the secret, and a provider failure ends it with the prompt error;
and a record whose first-entered password fails with the wrong-password
error but which is recovered by its own prompt stream is still included,
index-correlated at its original position, in the combined container that
the import produces. -/
theorem interactive_retry_and_inclusion :
    (∀ (c : Crypto) (p : String) (rest : List (Except String String)),
      decrypt c p = DecryptResult.wrongPassword →
      askUntilPasswordConfirms c (Except.ok p :: rest) =
        askUntilPasswordConfirms c rest) ∧
    (∀ (c : Crypto) (p : String) (rest : List (Except String String)) (b : Bytes),
      decrypt c p = DecryptResult.ok b →
      askUntilPasswordConfirms c (Except.ok p :: rest) = Except.ok b) ∧
    (∀ (c : Crypto) (e : String) (rest : List (Except String String)),
      askUntilPasswordConfirms c (Except.error e :: rest) =
        Except.error (errPrompt e)) ∧
    (∀ (w : Wallet) (firstPw : String)
        (prompts : Nat → List (Except String String))
        (pre : List Keystore) (ks : Keystore) (post : List Keystore)
        (preP postP : List (Option Bytes × Option Bytes))
        (privKey privB pubB : Bytes) (newId : String),
      importInteractiveLoop firstPw prompts 0 pre = Except.ok preP →
      importInteractiveLoop firstPw prompts (pre.length + 1) post = Except.ok postP →
      decrypt ks.crypto firstPw = DecryptResult.wrongPassword →
      askUntilPasswordConfirms ks.crypto (prompts pre.length) = Except.ok privKey →
      hexDecode (bytesToString privKey) = some privB →
      hexDecode ks.pubkey = some pubB →
      ImportKeystores w (PasswordSource.interactive (Except.ok firstPw) prompts)
          (pre ++ ks :: post) newId =
        Except.ok (createAccountsKeystore w.walletPassword
          ((preP ++ (some privB, some pubB) :: postP).map (fun p => p.1))
          ((preP ++ (some privB, some pubB) :: postP).map (fun p => p.2)) newId) ∧
      ((preP ++ (some privB, some pubB) :: postP).map (fun p => p.1)).get?
          pre.length = some (some privB) ∧
      ((preP ++ (some privB, some pubB) :: postP).map (fun p => p.2)).get?
          pre.length = some (some pubB)) := by
  refine ⟨?_, ?_, ?_, ?_⟩
  · intro c p rest h
    simp [askUntilPasswordConfirms, h]
  · intro c p rest b h
    simp [askUntilPasswordConfirms, h]
    rfl
  · intro c e rest
    simp [askUntilPasswordConfirms]
    rfl
  · intro w firstPw prompts pre ks post preP postP privKey privB pubB newId
      hpre hpost hdec hask hhexPriv hhexPub
    have hrec : importRecordInteractive firstPw (prompts pre.length) ks =
        Except.ok (some privB, some pubB) := by
      simp [importRecordInteractive, hdec, hask, hhexPriv, hhexPub]
      rfl
    have hcons : importInteractiveLoop firstPw prompts pre.length (ks :: post) =
        Except.ok ((some privB, some pubB) :: postP) := by
      have hunfold : importInteractiveLoop firstPw prompts pre.length (ks :: post) =
          (importRecordInteractive firstPw (prompts pre.length) ks >>= fun pair =>
            importInteractiveLoop firstPw prompts (pre.length + 1) post >>= fun pairs =>
            pure (pair :: pairs)) := rfl
      rw [hunfold, hrec, except_bind_ok, hpost, except_bind_ok, except_pure]
    have hfull : importInteractiveLoop firstPw prompts 0 (pre ++ ks :: post) =
        Except.ok (preP ++ (some privB, some pubB) :: postP) := by
      rw [importInteractiveLoop_append pre 0 preP (ks :: post) hpre,
        Nat.zero_add, hcons, except_bind_ok, except_pure]
    have himp : ImportKeystores w
        (PasswordSource.interactive (Except.ok firstPw) prompts)
        (pre ++ ks :: post) newId =
        (importInteractiveLoop firstPw prompts 0 (pre ++ ks :: post) >>= fun pairs =>
          pure (createAccountsKeystore w.walletPassword
            (pairs.map (fun p => p.1)) (pairs.map (fun p => p.2)) newId)) := rfl
    have hlenP : preP.length = pre.length :=
      importInteractiveLoop_length pre 0 preP hpre
    refine ⟨?_, ?_, ?_⟩
    · rw [himp, hfull, except_bind_ok, except_pure]
    · rw [List.map_append, List.map_cons]
      rw [List.get?_append_right (by simp [hlenP])]
      simp [hlenP]
    · rw [List.map_append, List.map_cons]
      rw [List.get?_append_right (by simp [hlenP])]
      simp [hlenP]

def indivPw : String := "indiv-pw"

/-- An import record encrypted under its own individual password, with
payload the hex text `0b` and pubkey hex `0c`. -/
def ksInd : Keystore :=
  { crypto := encrypt [48, 98] indivPw, id := "J", pubkey := "0c", version := 4, name := "n" }

/-- A prompt provider answering every follow-up prompt with the individual
password. -/
def promptsOne : Nat → List (Except String String) :=
  fun _ => [Except.ok indivPw]

/-- Witness for C4: the inclusion part applied at a concrete one-record
interactive import whose first password fails and whose prompt stream
recovers the record, every hypothesis discharged by evaluation. -/
theorem interactive_retry_and_inclusion_witness :
    ImportKeystores (mkWallet [])
        (PasswordSource.interactive (Except.ok impPw) promptsOne) [ksInd] idC =
      Except.ok (createAccountsKeystore wPw [some [11]] [some [12]] idC) ∧
    ([some [11]] : List (Option Bytes)).get? 0 = some (some [11]) ∧
    ([some [12]] : List (Option Bytes)).get? 0 = some (some [12]) := by
  have h := interactive_retry_and_inclusion.2.2.2 (mkWallet []) impPw promptsOne
    [] ksInd [] [] [] [48, 98] [11] [12] idC (by decide) (by decide) (by decide)
    (by decide) (by decide) (by decide)
  simpa using h

/-- A successful `mapM` over `Except` maps each element, index by index. -/
theorem mapM_ok_spec {α β : Type} (f : α → Except String β) :
    ∀ (l : List α) (bs : List β), l.mapM f = Except.ok bs →
      bs.length = l.length ∧
      ∀ i a, l.get? i = some a →
        ∃ b, f a = Except.ok b ∧ bs.get? i = some b := by
  intro l
  induction l with
  | nil =>
    intro bs h
    have h0 : Except.ok ([] : List β) = Except.ok bs := h
    rw [← Except.ok.inj h0]
    refine ⟨rfl, ?_⟩
    intro i a hi
    simp at hi
  | cons a t ih =>
    intro bs h
    rw [List.mapM_cons] at h
    cases ha : f a with
    | error e =>
      rw [ha, except_bind_error] at h
      exact absurd h (by simp)
    | ok b =>
      rw [ha, except_bind_ok] at h
      cases ht : t.mapM f with
      | error e =>
        rw [ht, except_bind_error] at h
        exact absurd h (by simp)
      | ok tb =>
        rw [ht, except_bind_ok, except_pure] at h
        rw [← Except.ok.inj h]
        obtain ⟨hlen, hidx⟩ := ih tb ht
        refine ⟨by simp [hlen], ?_⟩
        intro i a' hi
        match i with
        | 0 =>
          have haa : a = a' := by simpa using hi
          rw [← haa]
          exact ⟨b, ha, rfl⟩
        | i + 1 =>
          have hi' : t.get? i = some a' := by simpa using hi
          obtain ⟨b', hb', hg⟩ := hidx i a' hi'
          exact ⟨b', hb', by simpa using hg⟩

/-- C9: CONFIRMED. Enumeration takes the fast path — keys straight from the
cache — exactly when the cache size equals the number of account names;
its result never depends on the wallet's password operations (second
conjunct: any password-reading behaviour and wallet password give the same
result); and on the slow path each account's keystore record is read from
storage and its stored `pubkey` hex field decoded directly into the
index-correlated output, with no decryption involved. -/
theorem fetch_enumeration_split :
    ∀ (w : Wallet) (cache : KeysCache) (names : List String),
      w.listDirs = Except.ok names →
      (cache.length = names.length →
        fetchValidatingPublicKeys w cache = Except.ok (keysOfCache cache)) ∧
      (∀ (rp : String → Except String String) (wp : String),
        fetchValidatingPublicKeys ⟨w.listDirs, rp, w.readKeystore, wp⟩ cache =
          fetchValidatingPublicKeys w cache) ∧
      (cache.length ≠ names.length →
        ∀ pks, fetchValidatingPublicKeys w cache = Except.ok pks →
          pks.length = names.length ∧
          ∀ i name, names.get? i = some name →
            ∃ ksf pkb, w.readKeystore name = Except.ok ksf ∧
              hexDecode ksf.pubkey = some pkb ∧
              pks.get? i = some (toBytes48 pkb)) := by
  intro w cache names hld
  have hunfold : fetchValidatingPublicKeys w cache =
      (w.listDirs >>= fun accountNames =>
        if cache.length == accountNames.length then pure (keysOfCache cache)
        else accountNames.mapM (fetchOneFromKeystore w)) := rfl
  refine ⟨?_, ?_, ?_⟩
  · intro hlen
    rw [hunfold, hld, except_bind_ok, if_pos (by simp [hlen]), except_pure]
  · intro rp wp
    rfl
  · intro hne pks hpks
    rw [hunfold, hld, except_bind_ok, if_neg (by simp [hne])] at hpks
    obtain ⟨hlen, hidx⟩ := mapM_ok_spec (fetchOneFromKeystore w) names pks hpks
    refine ⟨hlen, ?_⟩
    intro i name hi
    obtain ⟨b, hb, hg⟩ := hidx i name hi
    unfold fetchOneFromKeystore at hb
    cases hk : w.readKeystore name with
    | error e =>
      rw [hk, except_bind_error] at hb
      exact absurd hb (by simp)
    | ok ksf =>
      rw [hk, except_bind_ok] at hb
      have hb2 : (match hexDecode ksf.pubkey with
          | none => (throw errBadPubkeyHex : Except String Bytes)
          | some pubKeyBytes => pure (toBytes48 pubKeyBytes)) =
          Except.ok b := hb
      cases hx : hexDecode ksf.pubkey with
      | none =>
        rw [hx] at hb2
        exact absurd hb2 (by simp [except_throw])
      | some pkb =>
        rw [hx] at hb2
        have hb3 : Except.ok (toBytes48 pkb) = Except.ok b := hb2
        refine ⟨ksf, pkb, rfl, hx, ?_⟩
        rw [hg, ← Except.ok.inj hb3]

/-- Witness for C9: the fast-path conjunct applied at a concrete wallet and
cache of matching sizes, both hypotheses discharged by evaluation. -/
theorem fetch_enumeration_split_witness :
    fetchValidatingPublicKeys (mkWallet [nameA]) [(pk48 skA, skA)] =
      Except.ok (keysOfCache [(pk48 skA, skA)]) := by
  exact (fetch_enumeration_split (mkWallet [nameA]) [(pk48 skA, skA)]
    [nameA] rfl).1 (by decide)
